import Mathlib

/-!
Verification of the contrastive-random-walk model in src/code/model.py.

Shallow-embedding conventions used throughout this file:
- rational numbers stand in for floats; square tensors are functions
  Fin n → Fin n → ℚ, batched tensors are indexed families;
- the float exponential inside softmax is an abstract parameter expF,
  assumed positive where a proof needs positivity (Real.exp is positive);
- in-place tensor mutation (the indexed assignment in stoch_mat) is made
  explicit: the function returns the value left in the tensor of the caller
  alongside its result;
- Python exceptions are modelled with Except String;
- non-finite float results (NaN from 0/0) are modelled with Option ℚ,
  where none marks a non-finite value that poisons later arithmetic.
-/

namespace CRW

/-- Step sequence of the palindrome walk of length i in CRW.forward
(line 279): g = A12s[: i + 1] + A21s[: i + 1][::-1], i.e. the forward
steps 0..i followed by the backward steps i..0. -/
def walkSteps {α : Type} (A12s A21s : List α) (i : ℕ) : List α :=
  A12s.take (i + 1) ++ (A21s.take (i + 1)).reverse

/-- Running products of the composition loop in CRW.forward (lines
280-282): aar = aal = g[0]; for _a in g[1:]: aar, aal = aar @ _a, _a @ aal.
The first component is the right-composed product, the second the
left-composed one. An empty g would raise IndexError in Python; it is
unreachable from the palindrome loop. -/
def composeWalk {α : Type} [Mul α] [Inhabited α] (g : List α) : α × α :=
  match g with
  | [] => (default, default)
  | a :: rest => rest.foldl (fun pr x => (pr.1 * x, x * pr.2)) (a, a)

/-- Palindrome branch of CRW.forward (lines 275-287): for each i in
range(1, len(A12s)) compose the palindrome step sequence and keep the
left product when self.flip is set, the right product otherwise; the
walks dict key is "cyc " followed by the label ("l" or "r" and i). -/
def palindromeWalks {α : Type} [Mul α] [Inhabited α] (flip : Bool)
    (A12s A21s : List α) : List (String × α) :=
  ((List.range A12s.length).drop 1).map fun i =>
    let pr := composeWalk (walkSteps A12s A21s i)
    if flip then ("cyc l" ++ toString i, pr.2) else ("cyc r" ++ toString i, pr.1)

theorem foldl_mul_eq_mul_prod {α : Type} [Monoid α] :
    ∀ (l : List α) (a : α), l.foldl (· * ·) a = a * l.prod := by
  intro l
  induction l with
  | nil => intro a; simp
  | cons x xs ih => intro a; simp [List.foldl_cons, ih, List.prod_cons, mul_assoc]

theorem foldl_flipmul_eq_reverse_prod {α : Type} [Monoid α] :
    ∀ (l : List α) (a : α), l.foldl (fun acc x => x * acc) a = l.reverse.prod * a := by
  intro l
  induction l with
  | nil => intro a; simp
  | cons x xs ih =>
      intro a
      simp only [List.foldl_cons, ih, List.reverse_cons, List.prod_append,
        List.prod_cons, List.prod_nil, mul_one, mul_assoc]

theorem foldl_pair_eval {α : Type} [Mul α] :
    ∀ (l : List α) (a b : α),
      l.foldl (fun pr x => (pr.1 * x, x * pr.2)) (a, b) =
        (l.foldl (· * ·) a, l.foldl (fun acc x => x * acc) b) := by
  intro l
  induction l with
  | nil => intro a b; rfl
  | cons x xs ih => intro a b; simp only [List.foldl_cons]; exact ih (a * x) (x * b)

theorem composeWalk_cons {α : Type} [Monoid α] [Inhabited α] (a : α) (rest : List α) :
    composeWalk (a :: rest) = ((a :: rest).prod, (a :: rest).reverse.prod) := by
  simp only [composeWalk, foldl_pair_eval, foldl_mul_eq_mul_prod,
    foldl_flipmul_eq_reverse_prod, List.prod_cons, List.reverse_cons,
    List.prod_append, List.prod_nil, mul_one]

/-- C1: in palindrome mode (sk_targets false), a T-step sequence with
T ≥ 3 yields exactly T−2 walks, one per length i = 1..T−2; the walk kept
at length i is the single pair whose matrix is the ordered right-composed
product of A12[0..i] ++ reverse A21[0..i] when flip is false, and the
left-composed (reverse-order) product of the same step sequence when flip
is true. -/
theorem c1_palindrome_walks {α : Type} [Monoid α] [Inhabited α]
    (T : ℕ) (hT : 3 ≤ T) (flip : Bool) (A12s A21s : List α)
    (h12 : A12s.length = T - 1) :
    (palindromeWalks flip A12s A21s).length = T - 2 ∧
    ∀ i : ℕ, 1 ≤ i → i ≤ T - 2 →
      (palindromeWalks flip A12s A21s).getD (i - 1) ("", 1) =
        (if flip then ("cyc l" ++ toString i, (walkSteps A12s A21s i).reverse.prod)
         else ("cyc r" ++ toString i, (walkSteps A12s A21s i).prod)) := by
  constructor
  · simp only [palindromeWalks, List.length_map, List.length_drop,
      List.length_range, h12]
    omega
  · intro i hi1 hi2
    have hlen : i - 1 < (((List.range A12s.length).drop 1).map
        (fun i => let pr := composeWalk (walkSteps A12s A21s i)
          if flip then ("cyc l" ++ toString i, pr.2)
          else ("cyc r" ++ toString i, pr.1))).length := by
      simp only [List.length_map, List.length_drop, List.length_range, h12]
      omega
    rw [palindromeWalks, List.getD_eq_getElem _ _ hlen, List.getElem_map]
    simp only [List.getElem_drop, List.getElem_range]
    have hidx : 1 + (i - 1) = i := by omega
    rw [hidx]
    have hne : walkSteps A12s A21s i ≠ [] := by
      have hpos : 0 < (walkSteps A12s A21s i).length := by
        simp only [walkSteps, List.length_append, List.length_take,
          List.length_reverse, h12]
        omega
      exact List.length_pos.1 hpos
    obtain ⟨a, rest, hcons⟩ := List.exists_cons_of_ne_nil hne
    have hcw : composeWalk (walkSteps A12s A21s i) =
        ((walkSteps A12s A21s i).prod, (walkSteps A12s A21s i).reverse.prod) := by
      rw [hcons]
      exact composeWalk_cons a rest
    cases flip with
    | false => simp only [hcw, Bool.false_eq_true, if_false]
    | true => simp only [hcw, if_true]

theorem c1_palindrome_walks_witness :
    (palindromeWalks false [(2 : ℚ), 3, 5] [7, 11, 13]).length = 2 ∧
    (palindromeWalks false [(2 : ℚ), 3, 5] [7, 11, 13]).getD 0 ("", 1) =
      ("cyc r" ++ toString 1, (walkSteps [(2 : ℚ), 3, 5] [7, 11, 13] 1).prod) := by
  have h := c1_palindrome_walks (α := ℚ) 4 (by norm_num) false
    [2, 3, 5] [7, 11, 13] (by simp)
  refine ⟨h.1, ?_⟩
  simpa using h.2 1 (by norm_num) (by norm_num)

/-- Loss aggregation of CRW.forward (lines 308-328): xents starts as the
singleton [0.0], each walk appends its mean cross-entropy value, and the
returned loss is sum(xents) / max(1, len(xents) - 1). -/
def crwLoss (perWalk : List ℚ) : ℚ :=
  ((0 : ℚ) :: perWalk).sum / ((max 1 (((0 : ℚ) :: perWalk).length - 1) : ℕ) : ℚ)

/-- C2: the returned scalar loss is the arithmetic mean of the per-walk
cross-entropy losses, and it is exactly zero when no walks were emitted;
with T = 2 the palindrome loop body never runs, so no walks are emitted. -/
theorem c2_loss_is_mean :
    (∀ perWalk : List ℚ, perWalk ≠ [] →
      crwLoss perWalk = perWalk.sum / (perWalk.length : ℚ)) ∧
    crwLoss [] = 0 ∧
    (∀ {α : Type} [Mul α] [Inhabited α] (flip : Bool) (A12s A21s : List α),
      A12s.length = 1 → palindromeWalks flip A12s A21s = []) := by
  refine ⟨?_, ?_, ?_⟩
  · intro perWalk hne
    have hpos : 0 < perWalk.length := List.length_pos_of_ne_nil hne
    simp only [crwLoss, List.sum_cons, zero_add, List.length_cons,
      Nat.add_sub_cancel]
    rw [Nat.max_eq_right hpos]
  · simp [crwLoss]
  · intro α _ _ flip A12s A21s h
    simp [palindromeWalks, h]

theorem c2_loss_is_mean_witness :
    crwLoss [(1 : ℚ), 2] = 3 / 2 ∧ crwLoss [] = 0 ∧
    palindromeWalks false [(5 : ℚ)] [7] = [] := by
  refine ⟨?_, c2_loss_is_mean.2.1, c2_loss_is_mean.2.2 false [(5 : ℚ)] [7] rfl⟩
  have h := c2_loss_is_mean.1 [(1 : ℚ), 2] (by simp)
  norm_num at h
  exact h

/-- Sentinel value written into dropped edges by stoch_mat (line 85):
A[torch.rand_like(A) < self.edgedrop_rate] = -1e20. -/
def dropSentinel : ℚ := -(10 ^ 20)

/-- Edge dropout of stoch_mat (lines 84-85): each entry whose fresh random
draw r falls below the configured rate is overwritten with the sentinel. -/
def edgeDropout {n : ℕ} (rate : ℚ) (r A : Fin n → Fin n → ℚ) :
    Fin n → Fin n → ℚ :=
  fun i j => if r i j < rate then dropSentinel else A i j

/-- CRW.zeroout_diag (lines 58-65): multiply by a mask that is 1 off the
diagonal and 0 on it. -/
def zeroout_diag {n : ℕ} (A : Fin n → Fin n → ℚ) : Fin n → Fin n → ℚ :=
  fun i j => A i j * (if i = j then 0 else 1)

/-- Temperature-scaled softmax along the destination axis,
F.softmax(A / self.temperature, dim=-1) on line 93; the float exponential
is the abstract positive parameter expF. -/
def softmaxLast {n : ℕ} (expF : ℚ → ℚ) (τ : ℚ) (A : Fin n → Fin n → ℚ) :
    Fin n → Fin n → ℚ :=
  fun i j =>
    expF (A i j / τ) / ((List.finRange n).map fun m => expF (A i m / τ)).sum

/-- CRW.stoch_mat (lines 78-93) for do_sinkhorn = false. The result pair is
(softmax output, value left in the tensor A of the caller): the dropout write on
line 85 is an in-place indexed assignment, so when it runs it mutates the
A of the caller - unless zero_diagonal already rebound the local name A to the
fresh tensor returned by zeroout_diag, in which case the tensor of the caller is
untouched. The do_sinkhorn branch is omitted from the embedding: its only
call sites are the sk_targets branch of forward, which fails before
reaching them (see skTargetWalks), and the dead visualization path. -/
def stoch_mat {n : ℕ} (expF : ℚ → ℚ) (τ rate : ℚ)
    (zero_diagonal do_dropout : Bool) (r A : Fin n → Fin n → ℚ) :
    (Fin n → Fin n → ℚ) × (Fin n → Fin n → ℚ) :=
  let A1 := if zero_diagonal then zeroout_diag A else A
  let A2 := if do_dropout = true ∧ 0 < rate then edgeDropout rate r A1 else A1
  (softmaxLast expF τ A2, if zero_diagonal then A else A2)

theorem softmaxLast_row_sum {n : ℕ} (expF : ℚ → ℚ) (hpos : ∀ x : ℚ, 0 < expF x)
    (τ : ℚ) (A : Fin n → Fin n → ℚ) (i : Fin n) :
    ((List.finRange n).map fun j => softmaxLast expF τ A i j).sum = 1 := by
  have hne : (List.finRange n) ≠ ([] : List (Fin n)) := by
    have h0 : 0 < n := i.pos
    intro h
    have := List.length_finRange n
    rw [h] at this
    simp at this
    omega
  have hS : 0 < ((List.finRange n).map fun m => expF (A i m / τ)).sum := by
    apply List.sum_pos
    · intro x hx
      obtain ⟨m, _, rfl⟩ := List.mem_map.1 hx
      exact hpos _
    · simpa using hne
  simp only [softmaxLast, div_eq_mul_inv]
  rw [List.sum_map_mul_right]
  exact mul_inv_cancel₀ (ne_of_gt hS)

/-- C3: every row of the (non-Sinkhorn) stoch_mat output sums to exactly 1,
i.e. is a probability distribution over destination nodes, for every n ≥ 1
and any flag setting; in the degenerate 1x1 case the single entry is
exactly 1. -/
theorem c3_stoch_mat_rows_stochastic (expF : ℚ → ℚ) (hpos : ∀ x : ℚ, 0 < expF x) :
    (∀ (n : ℕ) (τ rate : ℚ) (zd dd : Bool) (r A : Fin n → Fin n → ℚ) (i : Fin n),
      ((List.finRange n).map fun j =>
        (stoch_mat expF τ rate zd dd r A).1 i j).sum = 1) ∧
    (∀ (τ rate : ℚ) (zd dd : Bool) (r A : Fin 1 → Fin 1 → ℚ) (i j : Fin 1),
      (stoch_mat expF τ rate zd dd r A).1 i j = 1) := by
  constructor
  · intro n τ rate zd dd r A i
    exact softmaxLast_row_sum expF hpos τ _ i
  · intro τ rate zd dd r A i j
    have h := softmaxLast_row_sum expF hpos τ
      (if dd = true ∧ 0 < rate then
          edgeDropout rate r (if zd then zeroout_diag A else A)
        else if zd then zeroout_diag A else A) i
    have hfr : (List.finRange 1) = [(0 : Fin 1)] := rfl
    have hj : j = 0 := Subsingleton.elim _ _
    rw [hfr] at h
    simp only [List.map_cons, List.map_nil, List.sum_cons, List.sum_nil,
      add_zero] at h
    rw [hj]
    simpa [stoch_mat] using h

theorem c3_stoch_mat_rows_stochastic_witness :
    ((List.finRange 2).map fun j =>
      (stoch_mat (fun _ => (2 : ℚ)) (7 / 100) 0 false true
        ((fun _ _ => 1) : Fin 2 → Fin 2 → ℚ)
        ((fun _ _ => 1) : Fin 2 → Fin 2 → ℚ)).1 0 j).sum = 1 ∧
    (stoch_mat (fun _ => (2 : ℚ)) (7 / 100) 0 false true
      ((fun _ _ => 1) : Fin 1 → Fin 1 → ℚ)
      ((fun _ _ => 1) : Fin 1 → Fin 1 → ℚ)).1 0 0 = 1 := by
  have h := c3_stoch_mat_rows_stochastic (fun _ => (2 : ℚ)) (fun x => by norm_num)
  exact ⟨h.1 2 (7 / 100) 0 false true (fun _ _ => 1) (fun _ _ => 1) 0,
    h.2 (7 / 100) 0 false true (fun _ _ => 1) (fun _ _ => 1) 0 0⟩

/-- C9: with edge-dropout rate 0 (and zero_diagonal false, do_sinkhorn
false), stoch_mat is deterministic - the random tensor r is irrelevant -
its output is the plain temperature-scaled softmax of the input affinity,
and the affinity tensor of the caller is left unchanged. -/
theorem c9_stoch_mat_rate_zero_deterministic :
    ∀ (n : ℕ) (expF : ℚ → ℚ) (τ : ℚ) (r r2 A : Fin n → Fin n → ℚ),
      stoch_mat expF τ 0 false true r A = stoch_mat expF τ 0 false true r2 A ∧
      (stoch_mat expF τ 0 false true r A).1 = softmaxLast expF τ A ∧
      (stoch_mat expF τ 0 false true r A).2 = A := by
  intro n expF τ r r2 A
  have h : ¬(true = true ∧ (0 : ℚ) < 0) := by simp
  refine ⟨?_, ?_, ?_⟩ <;> simp [stoch_mat, h]

/-- Matrix transpose view, A.transpose(-1, -2). -/
def transposeM {n : ℕ} (A : Fin n → Fin n → ℚ) : Fin n → Fin n → ℚ :=
  fun i j => A j i

/-- Lines 270-276 of CRW.forward with the in-place dropout mutation made
explicit. The A12s comprehension corrupts each slice As[:, i] in place
(the slices are disjoint views of As); AsAfter is the content of As once
that comprehension has run. The A21s comprehension then reads the
transposed slices of the mutated As, not of the original affinities (its
own dropout writes corrupt As further, but nothing reads As afterwards). -/
def forwardTransitions {n : ℕ} (expF : ℚ → ℚ) (τ rate : ℚ) (T : ℕ)
    (As : ℕ → Fin n → Fin n → ℚ) (r1 r2 : ℕ → Fin n → Fin n → ℚ) :
    List (Fin n → Fin n → ℚ) × List (Fin n → Fin n → ℚ) ×
      (ℕ → Fin n → Fin n → ℚ) :=
  let AsAfter : ℕ → Fin n → Fin n → ℚ := fun i =>
    if i < T - 1 then (stoch_mat expF τ rate false true (r1 i) (As i)).2 else As i
  let A12s := (List.range (T - 1)).map fun i =>
    (stoch_mat expF τ rate false true (r1 i) (As i)).1
  let A21s := (List.range (T - 1)).map fun i =>
    (stoch_mat expF τ rate false true (r2 i) (transposeM (AsAfter i))).1
  (A12s, A21s, AsAfter)

/-- Concrete 2x2 affinity [[1,2],[3,4]] used to exhibit the mutation. -/
def cAs : Fin 2 → Fin 2 → ℚ := fun i j => ((i.val * 2 + j.val + 1 : ℕ) : ℚ)

/-- Concrete random draw that drops exactly the (0,0) edge at rate 1/2. -/
def cR1 : Fin 2 → Fin 2 → ℚ := fun i j => if i.val = 0 ∧ j.val = 0 then 0 else 1

/-- Concrete computable stand-in for the positive exponential. -/
def cExp : ℚ → ℚ := fun x => x * x + 1

theorem forwardTransitions_a21_getD {n : ℕ} (expF : ℚ → ℚ) (τ rate : ℚ) (T : ℕ)
    (As r1 r2 : ℕ → Fin n → Fin n → ℚ) (i : ℕ) (hrate : 0 < rate)
    (hi : i < T - 1) :
    (forwardTransitions expF τ rate T As r1 r2).2.1.getD i (fun _ _ => 0) =
      softmaxLast expF τ
        (edgeDropout rate (r2 i) (transposeM (edgeDropout rate (r1 i) (As i)))) := by
  have hcond : (true = true ∧ (0 : ℚ) < rate) := ⟨rfl, hrate⟩
  have hlen : i < ((List.range (T - 1)).map fun i =>
      (stoch_mat expF τ rate false true (r2 i)
        (transposeM (if i < T - 1 then
          (stoch_mat expF τ rate false true (r1 i) (As i)).2 else As i))).1).length := by
    simpa using hi
  simp only [forwardTransitions]
  rw [List.getD_eq_getElem _ _ hlen, List.getElem_map, List.getElem_range]
  simp [stoch_mat, hcond, hi]

/-- C10: with a positive edge-dropout rate, the dropout write of stoch_mat
mutates the affinity tensor of the caller in place (second and third conjunct:
at a concrete input the value left in A is the sentinel, not the original
entry), and every backward matrix A21s[i] is computed from the slice
already corrupted while building A12s[i] (first conjunct) - at a concrete
input it differs from the matrix the original affinity would have given
(fourth conjunct). -/
theorem c10_dropout_mutates_affinities :
    (∀ (n T : ℕ) (expF : ℚ → ℚ) (τ rate : ℚ)
      (As r1 r2 : ℕ → Fin n → Fin n → ℚ) (i : ℕ),
      0 < rate → i < T - 1 →
      (forwardTransitions expF τ rate T As r1 r2).2.1.getD i (fun _ _ => 0) =
        softmaxLast expF τ
          (edgeDropout rate (r2 i) (transposeM (edgeDropout rate (r1 i) (As i))))) ∧
    (stoch_mat cExp 1 (1 / 2) false true cR1 cAs).2 0 0 ≠ cAs 0 0 ∧
    (stoch_mat cExp 1 (1 / 2) false true cR1 cAs).2 0 0 = dropSentinel ∧
    ((forwardTransitions cExp 1 (1 / 2) 2 (fun _ => cAs) (fun _ => cR1)
        (fun _ _ _ => 1)).2.1.getD 0 (fun _ _ => 0)) 0 0 ≠
      (stoch_mat cExp 1 (1 / 2) false true (fun _ _ => 1) (transposeM cAs)).1 0 0 := by
  have hcond : (true = true ∧ (0 : ℚ) < 1 / 2) := ⟨rfl, by norm_num⟩
  have hmut : (stoch_mat cExp 1 (1 / 2) false true cR1 cAs).2 0 0 = dropSentinel := by
    simp only [stoch_mat, Bool.false_eq_true, if_false, if_pos hcond]
    norm_num [edgeDropout, cR1, cAs, dropSentinel]
  refine ⟨fun n T expF τ rate As r1 r2 i hrate hi =>
    forwardTransitions_a21_getD expF τ rate T As r1 r2 i hrate hi, ?_, hmut, ?_⟩
  · rw [hmut]
    simp only [cAs, dropSentinel]
    norm_num
  · rw [forwardTransitions_a21_getD cExp 1 (1 / 2) 2 (fun _ => cAs)
      (fun _ => cR1) (fun _ _ _ => 1) 0 (by norm_num) (by norm_num)]
    have hfr : (List.finRange 2) = [(0 : Fin 2), 1] := rfl
    simp only [softmaxLast, stoch_mat, Bool.false_eq_true, if_false,
      if_pos hcond, hfr, edgeDropout, transposeM, cR1, cAs, cExp, dropSentinel,
      List.map_cons, List.map_nil, List.sum_cons, List.sum_nil]
    norm_num [edgeDropout, transposeM, cAs]

theorem c10_dropout_mutates_affinities_witness :
    (forwardTransitions cExp 1 (1 / 2) 2 (fun _ => cAs) (fun _ => cR1)
        (fun _ _ _ => 1)).2.1.getD 0 (fun _ _ => 0) =
      softmaxLast cExp 1
        (edgeDropout (1 / 2) (fun _ _ => 1) (transposeM (edgeDropout (1 / 2) cR1 cAs))) :=
  c10_dropout_mutates_affinities.1 2 2 cExp 1 (1 / 2) (fun _ => cAs)
    (fun _ => cR1) (fun _ _ _ => 1) 0 (by norm_num) (by norm_num)

/-- Sinkhorn-target branch of CRW.forward (lines 289-303). Its first
statement is a12, at = A12s[0], self.stoch_mat(A[:, 0], ...), and no
assignment to the local variable A precedes this point in forward (the only
binding of A is the later loop over walks.items() in the loss section), so
evaluating A raises UnboundLocalError; the TODO comment on lines 291-292
records that A is undefined. A12s[0] is evaluated first, so an empty A12s
(T = 1) instead raises IndexError. -/
def skTargetWalks {α : Type} (A12s : List α) : Except String (List (String × α)) :=
  match A12s with
  | [] => Except.error "IndexError: list index out of range"
  | _ :: _ =>
      Except.error "UnboundLocalError: local variable A referenced before assignment"

/-- Walk-construction dispatch of CRW.forward (lines 275-303): palindrome
mode builds the palindrome walks; sk_targets mode fails as described in
skTargetWalks. -/
def computeWalks {α : Type} [Mul α] [Inhabited α] (sk_targets flip : Bool)
    (A12s A21s : List α) : Except String (List (String × α)) :=
  if sk_targets then skTargetWalks A12s
  else Except.ok (palindromeWalks flip A12s A21s)

/-- C5 (code bug): in sk_targets mode with T ≥ 2 time steps (so A12s is
nonempty), the forward pass does not emit the claimed (a12, pseudo-label)
pairs: it raises UnboundLocalError at the read of the unbound variable A
on line 293, before any walk is produced. -/
theorem c5_sk_targets_raises {α : Type} [Mul α] [Inhabited α]
    (flip : Bool) (A12s A21s : List α) (h : A12s ≠ []) :
    computeWalks true flip A12s A21s =
      Except.error "UnboundLocalError: local variable A referenced before assignment" := by
  cases A12s with
  | nil => exact absurd rfl h
  | cons a rest => simp [computeWalks, skTargetWalks]

theorem c5_sk_targets_raises_witness :
    computeWalks true false [(1 : ℚ)] [1] =
      Except.error "UnboundLocalError: local variable A referenced before assignment" :=
  c5_sk_targets_raises false [(1 : ℚ)] [1] (by simp)

/-- Layer constructors appearing in the embedding head: nn.Linear(d1, d2)
and nn.ReLU(). -/
inductive HeadLayer : Type where
  | linear : ℕ → ℕ → HeadLayer
  | relu : HeadLayer
deriving DecidableEq

/-- Dimension list of CRW.make_head (line 50):
dims = [enc_hid_dim] + [enc_hid_dim] * depth + [128]. -/
def headDims (encDim t : ℕ) : List ℕ :=
  [encDim] ++ List.replicate t encDim ++ [128]

/-- Layer list built by the loop of CRW.make_head (lines 51-53): for each
consecutive dimension pair append a Linear and a ReLU. -/
def headList (encDim t : ℕ) : List HeadLayer :=
  ((headDims encDim t).zip (headDims encDim t).tail).flatMap fun p =>
    [HeadLayer.linear p.1 p.2, HeadLayer.relu]

/-- CRW.make_head (lines 47-56): head = []; if depth >= 0 the loop runs and
the trailing ReLU is removed (head = head[:-1]); nn.Sequential of the
result is returned, and an empty list gives the identity module. -/
def make_head (encDim : ℕ) (depth : ℤ) : List HeadLayer :=
  if 0 ≤ depth then (headList encDim depth.toNat).dropLast else []

/-- Alternation stated by the spec: d + 1 linear transforms interleaved
with d ReLU activations, the final linear lacking a trailing nonlinearity;
every hidden width is encDim and the output width is 128. -/
def altChain (encDim : ℕ) : ℕ → List HeadLayer
  | 0 => [HeadLayer.linear encDim 128]
  | d + 1 => HeadLayer.linear encDim encDim :: HeadLayer.relu :: altChain encDim d

theorem headList_succ (encDim t : ℕ) :
    headList encDim (t + 1) =
      HeadLayer.linear encDim encDim :: HeadLayer.relu :: headList encDim t := by
  simp [headList, headDims, List.replicate_succ, List.zip_cons_cons]

theorem headList_ne_nil (encDim t : ℕ) : headList encDim t ≠ [] := by
  cases t with
  | zero => simp [headList, headDims]
  | succ t => rw [headList_succ]; simp

/-- C6 counterexample: with head depth 0 (the default), make_head is not
the identity mapping (the empty Sequential); it is a single
Linear(enc_hid_dim, 128) layer, which changes the channel dimension from
512 to 128. -/
theorem c6_head_depth_zero_not_identity :
    make_head 512 0 = [HeadLayer.linear 512 128] ∧ make_head 512 0 ≠ [] := by
  have h1 : make_head 512 0 = [HeadLayer.linear 512 128] := rfl
  exact ⟨h1, by rw [h1]; simp⟩

/-- C6 (amended): a negative head depth yields the identity mapping (empty
layer list); for any depth d ≥ 0 the head is the alternation of d + 1
linear transforms and d ReLU activations in which the final linear layer
has no trailing nonlinearity. -/
theorem c6_make_head_structure :
    (∀ (encDim : ℕ) (depth : ℤ), depth < 0 → make_head encDim depth = []) ∧
    (∀ encDim d : ℕ, make_head encDim (d : ℤ) = altChain encDim d) := by
  constructor
  · intro encDim depth h
    simp [make_head, not_le.2 h]
  · intro encDim d
    induction d with
    | zero => rfl
    | succ d ih =>
        obtain ⟨z, zs, hz⟩ := List.exists_cons_of_ne_nil (headList_ne_nil encDim d)
        have hdrop : (HeadLayer.linear encDim encDim :: HeadLayer.relu ::
            headList encDim d).dropLast =
            HeadLayer.linear encDim encDim :: HeadLayer.relu ::
              (headList encDim d).dropLast := by
          rw [hz]
          simp only [List.dropLast_cons₂]
        have hstep : make_head encDim ((d + 1 : ℕ) : ℤ) =
            HeadLayer.linear encDim encDim :: HeadLayer.relu ::
              (headList encDim d).dropLast := by
          simp only [make_head, if_pos (Int.natCast_nonneg (d + 1)),
            Int.toNat_natCast, headList_succ, hdrop]
        have hd : (headList encDim d).dropLast = altChain encDim d := by
          simp only [make_head, if_pos (Int.natCast_nonneg d),
            Int.toNat_natCast] at ih
          exact ih
        rw [hstep, hd]
        rfl


theorem c6_make_head_structure_witness :
    make_head 512 (-1) = [] ∧ make_head 512 ((2 : ℕ) : ℤ) = altChain 512 2 :=
  ⟨c6_make_head_structure.1 512 (-1) (by norm_num),
    c6_make_head_structure.2 512 2⟩

/-- State of the target cache self._xent_targets: the dict entries in
insertion order, each holding its key string, the identity of the array
object created for it (a fresh allocation id), and the array contents; next
is the next fresh allocation id. -/
structure XentCache : Type where
  entries : List (String × ℕ × List ℕ)
  next : ℕ

/-- Cache key of CRW.xent_targets (line 334):
"%s:%sx%s" % (str(A.device), B, N). -/
def xentKey (device : String) (B N : ℕ) : String :=
  device ++ ":" ++ toString B ++ "x" ++ toString N

/-- Dict lookup by key string. -/
def lookupKey : List (String × ℕ × List ℕ) → String → Option (ℕ × List ℕ)
  | [], _ => none
  | (k, v) :: rest, key => if k = key then some v else lookupKey rest key

/-- Array contents built on a cache miss (lines 337-338):
torch.arange(N)[None].repeat(B, 1).view(-1), i.e. 0..N-1 repeated B times.
For a (B, N, N) walk matrix, A.shape[:2] = (B, N) and A.shape[-1] = N, so
the key count and the arange bound coincide. -/
def xentTargetsArray (B N : ℕ) : List ℕ :=
  (List.replicate B (List.range N)).flatten

/-- CRW.xent_targets (lines 332-340): on a miss the freshly built array is
stored under the key and returned; on a hit the stored array object is
returned unchanged. Returns ((array id, array contents), new cache). -/
def xent_targets (device : String) (B N : ℕ) (c : XentCache) :
    (ℕ × List ℕ) × XentCache :=
  match lookupKey c.entries (xentKey device B N) with
  | some v => (v, c)
  | none =>
      ((c.next, xentTargetsArray B N),
        ⟨c.entries ++ [(xentKey device B N, c.next, xentTargetsArray B N)],
          c.next + 1⟩)

/-- Well-formedness of a cache reachable from the empty one: allocation ids
are exactly 0, 1, ... in insertion order and next is the entry count. -/
def CacheWF (c : XentCache) : Prop :=
  c.entries.map (fun e => e.2.1) = List.range c.entries.length ∧
  c.next = c.entries.length

theorem lookupKey_mem {l : List (String × ℕ × List ℕ)} {key : String}
    {v : ℕ × List ℕ} (h : lookupKey l key = some v) : (key, v) ∈ l := by
  induction l with
  | nil => simp [lookupKey] at h
  | cons e rest ih =>
      obtain ⟨k, w⟩ := e
      by_cases hk : k = key
      · subst hk
        simp only [lookupKey, if_pos rfl] at h
        obtain rfl := Option.some_injective _ h
        exact List.mem_cons_self _ _
      · simp only [lookupKey, if_neg hk] at h
        exact List.mem_cons_of_mem _ (ih h)

theorem lookupKey_append_left {l l2 : List (String × ℕ × List ℕ)} {key : String}
    {v : ℕ × List ℕ} (h : lookupKey l key = some v) :
    lookupKey (l ++ l2) key = some v := by
  induction l with
  | nil => simp [lookupKey] at h
  | cons e rest ih =>
      obtain ⟨k, w⟩ := e
      by_cases hk : k = key
      · subst hk
        simp only [lookupKey, if_pos rfl] at h ⊢
        exact h
      · simp only [lookupKey, if_neg hk] at h ⊢
        exact ih h

theorem lookupKey_append_hit {l : List (String × ℕ × List ℕ)} {key : String}
    (v : ℕ × List ℕ) (h : lookupKey l key = none) :
    lookupKey (l ++ [(key, v)]) key = some v := by
  induction l with
  | nil => simp [lookupKey]
  | cons e rest ih =>
      obtain ⟨k, w⟩ := e
      by_cases hk : k = key
      · subst hk
        simp [lookupKey] at h
      · simp only [lookupKey, if_neg hk] at h ⊢
        exact ih h

theorem lookupKey_append_other {l : List (String × ℕ × List ℕ)}
    {key key2 : String} (v : ℕ × List ℕ) (h : key2 ≠ key) :
    lookupKey (l ++ [(key2, v)]) key = lookupKey l key := by
  induction l with
  | nil => simp [lookupKey, if_neg h]
  | cons e rest ih =>
      obtain ⟨k, w⟩ := e
      by_cases hk : k = key
      · subst hk
        simp [lookupKey]
      · simp only [lookupKey, if_neg hk]
        exact ih

theorem cacheWF_id_lt {c : XentCache} (hwf : CacheWF c) {key : String}
    {v : ℕ × List ℕ} (h : lookupKey c.entries key = some v) : v.1 < c.next := by
  have hm : (key, v) ∈ c.entries := lookupKey_mem h
  have : v.1 ∈ c.entries.map (fun e => e.2.1) :=
    List.mem_map.2 ⟨(key, v), hm, rfl⟩
  rw [hwf.1] at this
  rw [hwf.2]
  exact List.mem_range.1 this

theorem cacheWF_distinct_ids {c : XentCache} (hwf : CacheWF c)
    {k1 k2 : String} {v1 v2 : ℕ × List ℕ}
    (h1 : lookupKey c.entries k1 = some v1)
    (h2 : lookupKey c.entries k2 = some v2) (hk : k1 ≠ k2) : v1.1 ≠ v2.1 := by
  intro he
  have hnd : (c.entries.map (fun e => e.2.1)).Nodup := by
    rw [hwf.1]
    exact List.nodup_range _
  have hinj := List.inj_on_of_nodup_map hnd
  have heq := hinj (lookupKey_mem h1) (lookupKey_mem h2) he
  exact hk (congrArg Prod.fst heq)

theorem cacheWF_preserved (device : String) (B N : ℕ) {c : XentCache}
    (hwf : CacheWF c) : CacheWF (xent_targets device B N c).2 := by
  unfold xent_targets
  cases h : lookupKey c.entries (xentKey device B N) with
  | some v => exact hwf
  | none =>
      refine ⟨?_, ?_⟩
      · simp only [List.map_append, List.map_cons, List.map_nil,
          List.length_append, List.length_cons, List.length_nil, hwf.1, hwf.2]
        rw [← List.range_succ]
      · simp [hwf.2]

/-- C8: xent_targets returns the array 0..N-1 repeated once per batch row
(length B·N) on a miss; an immediately repeated call with the same key
returns the identical cached array object and leaves the cache unchanged;
two sequential calls with differing keys return arrays with distinct
object identities; and no call ever removes or overwrites an entry that
was cached for any key. -/
theorem c8_xent_targets_cache :
    (∀ (d : String) (B N : ℕ) (c : XentCache),
      lookupKey c.entries (xentKey d B N) = none →
      (xent_targets d B N c).1.2 = (List.replicate B (List.range N)).flatten ∧
      ((xent_targets d B N c).1.2).length = B * N) ∧
    (∀ (d : String) (B N : ℕ) (c : XentCache),
      xent_targets d B N ((xent_targets d B N c).2) =
        ((xent_targets d B N c).1, (xent_targets d B N c).2)) ∧
    (∀ (d1 d2 : String) (B1 N1 B2 N2 : ℕ) (c : XentCache), CacheWF c →
      xentKey d1 B1 N1 ≠ xentKey d2 B2 N2 →
      (xent_targets d2 B2 N2 (xent_targets d1 B1 N1 c).2).1.1 ≠
        (xent_targets d1 B1 N1 c).1.1) ∧
    (∀ (d : String) (B N : ℕ) (c : XentCache) (k : String) (v : ℕ × List ℕ),
      lookupKey c.entries k = some v →
      lookupKey ((xent_targets d B N c).2).entries k = some v) := by
  refine ⟨?_, ?_, ?_, ?_⟩
  · intro d B N c h
    unfold xent_targets
    rw [h]
    refine ⟨rfl, ?_⟩
    simp [xentTargetsArray, List.length_flatten, Function.comp,
      List.map_replicate, List.sum_replicate, smul_eq_mul]
  · intro d B N c
    unfold xent_targets
    cases h : lookupKey c.entries (xentKey d B N) with
    | some v => simp [h]
    | none => simp [lookupKey_append_hit _ h]
  · intro d1 d2 B1 N1 B2 N2 c hwf hk
    unfold xent_targets
    cases h1 : lookupKey c.entries (xentKey d1 B1 N1) with
    | some v1 =>
        cases h2 : lookupKey c.entries (xentKey d2 B2 N2) with
        | some v2 => exact fun he => cacheWF_distinct_ids hwf h2 h1 hk.symm he
        | none => exact fun he => absurd he.symm (Nat.ne_of_lt (cacheWF_id_lt hwf h1))
    | none =>
        rw [lookupKey_append_other _ hk]
        cases h2 : lookupKey c.entries (xentKey d2 B2 N2) with
        | some v2 =>
            exact fun he => absurd he (Nat.ne_of_lt (cacheWF_id_lt hwf h2))
        | none => simp
  · intro d B N c k v h
    unfold xent_targets
    cases h2 : lookupKey c.entries (xentKey d B N) with
    | some w => exact h
    | none => exact lookupKey_append_left h

theorem c8_xent_targets_cache_witness :
    (xent_targets "cuda:0" 2 3 ⟨[], 0⟩).1.2 =
      (List.replicate 2 (List.range 3)).flatten ∧
    ((xent_targets "cuda:0" 2 3 ⟨[], 0⟩).1.2).length = 2 * 3 ∧
    xent_targets "cuda:0" 2 3 ((xent_targets "cuda:0" 2 3 ⟨[], 0⟩).2) =
      ((xent_targets "cuda:0" 2 3 ⟨[], 0⟩).1, (xent_targets "cuda:0" 2 3 ⟨[], 0⟩).2) ∧
    (xent_targets "cuda:1" 1 1 (xent_targets "cuda:0" 2 3 ⟨[], 0⟩).2).1.1 ≠
      (xent_targets "cuda:0" 2 3 ⟨[], 0⟩).1.1 := by
  have h1 := c8_xent_targets_cache.1 "cuda:0" 2 3 ⟨[], 0⟩ rfl
  refine ⟨h1.1, h1.2, c8_xent_targets_cache.2.1 "cuda:0" 2 3 ⟨[], 0⟩, ?_⟩
  exact c8_xent_targets_cache.2.2.1 "cuda:0" "cuda:1" 2 3 1 1 ⟨[], 0⟩
    ⟨rfl, rfl⟩ (by decide)

/-- Row-major flattening of the superpixel segmentation of one time step
labels, the input torch.unique sees on line 148. -/
def allLabels (H W k : ℕ) (seg : Fin (H * k) → Fin (W * k) → ℤ) : List ℤ :=
  (List.finRange (H * k)).flatMap fun i =>
    (List.finRange (W * k)).map fun j => seg i j

/-- torch.unique(segments) on line 148: the distinct labels present in the
frame, sorted ascending. -/
def uniqueLabels (H W k : ℕ) (seg : Fin (H * k) → Fin (W * k) → ℤ) : List ℤ :=
  List.insertionSort (· ≤ ·) (allLabels H W k seg).dedup

/-- One-hot superpixel masks of line 148 after the F.pad of line 165: mask
s is the indicator of the s-th smallest label when s is below the number
of distinct labels, and identically zero for the padded indices up to
max_sp_num. -/
def spMask (H W k : ℕ) (seg : Fin (H * k) → Fin (W * k) → ℤ) (s : ℕ)
    (i : Fin (H * k)) (j : Fin (W * k)) : ℚ :=
  if s < (uniqueLabels H W k seg).length ∧
      seg i j = (uniqueLabels H W k seg).getD s 0 then 1 else 0

/-- Total area of superpixel s (line 174):
sp_size = superpixels.sum(-1).sum(-1). -/
def spSize (H W k : ℕ) (seg : Fin (H * k) → Fin (W * k) → ℤ) (s : ℕ) : ℚ :=
  ((List.finRange (H * k)).map fun i =>
    ((List.finRange (W * k)).map fun j => spMask H W k seg s i j).sum).sum

theorem window_index_lt {m k : ℕ} (u : Fin m) (a : Fin k) :
    u.val * k + a.val < m * k := by
  have h1 : u.val * k + a.val < u.val * k + k := Nat.add_lt_add_left a.isLt _
  have h2 : u.val * k + k = (u.val + 1) * k := by ring
  have h3 : (u.val + 1) * k ≤ m * k := Nat.mul_le_mul_right k u.isLt
  rw [h2] at h1
  exact lt_of_lt_of_le h1 h3

/-- Pixel index of offset a inside output cell u.

Modelled from the spec: prototyping.view_as_windows (imported on line 11)
is repository code that is not under src/; per the spec, the window
attached to output cell (u, v) is the receptive field of that cell, the k-by-k
block of pixels starting at (u·k, v·k), where k = h // H is both the
window size and the step. -/
def wIdx {m k : ℕ} (u : Fin m) (a : Fin k) : Fin (m * k) :=
  ⟨u.val * k + a.val, window_index_lt u a⟩

/-- Weight numerator of line 172: ww_not_norm[u, v, s] is the area of the
intersection of superpixel s with the receptive field of output cell
(u, v). -/
def wwNotNorm (H W k : ℕ) (seg : Fin (H * k) → Fin (W * k) → ℤ)
    (u : Fin H) (v : Fin W) (s : ℕ) : ℚ :=
  ((List.finRange k).map fun a =>
    ((List.finRange k).map fun b =>
      spMask H W k seg s (wIdx u a) (wIdx v b)).sum).sum

/-- Float division with the non-finite outcome made explicit: a zero
denominator yields a non-finite float, modelled as none (the case arising
below is 0/0, i.e. NaN, since the numerator is bounded by the
denominator). No epsilon is added to the denominator on line 175. -/
def floatDiv (a b : ℚ) : Option ℚ := if b = 0 then none else some (a / b)

/-- Normalized weights of line 175: ww_norm = ww_not_norm / sp_size. -/
def wwNorm (H W k : ℕ) (seg : Fin (H * k) → Fin (W * k) → ℤ)
    (u : Fin H) (v : Fin W) (s : ℕ) : Option ℚ :=
  floatDiv (wwNotNorm H W k seg u v s) (spSize H W k seg s)

/-- NaN-propagating product with a finite float. -/
def optMul (x : Option ℚ) (q : ℚ) : Option ℚ := x.map fun a => a * q

/-- NaN-propagating addition. -/
def optAdd (x y : Option ℚ) : Option ℚ :=
  match x, y with
  | some a, some b => some (a + b)
  | _, _ => none

/-- NaN-propagating sum. -/
def optSum (l : List (Option ℚ)) : Option ℚ := l.foldl optAdd (some 0)

/-- Weighted-average feature of superpixel s in channel c (lines 177-184):
feats[s, c] is the sum over output cells (u, v) of
ww_norm[u, v, s] * img_map[u, v, c]. -/
def spFeat (H W k C : ℕ) (seg : Fin (H * k) → Fin (W * k) → ℤ)
    (fmap : Fin H → Fin W → Fin C → ℚ) (s : ℕ) (c : Fin C) : Option ℚ :=
  optSum ((List.finRange H).flatMap fun u =>
    (List.finRange W).map fun v => optMul (wwNorm H W k seg u v s) (fmap u v c))

theorem spMask_nonneg (H W k : ℕ) (seg : Fin (H * k) → Fin (W * k) → ℤ)
    (s : ℕ) (i : Fin (H * k)) (j : Fin (W * k)) :
    0 ≤ spMask H W k seg s i j := by
  unfold spMask
  split <;> norm_num

theorem mem_uniqueLabels_iff (H W k : ℕ) (seg : Fin (H * k) → Fin (W * k) → ℤ)
    (x : ℤ) : x ∈ uniqueLabels H W k seg ↔ x ∈ allLabels H W k seg := by
  unfold uniqueLabels
  rw [(List.perm_insertionSort _ _).mem_iff, List.mem_dedup]

theorem exists_pixel_of_mem_allLabels {H W k : ℕ}
    {seg : Fin (H * k) → Fin (W * k) → ℤ} {x : ℤ}
    (h : x ∈ allLabels H W k seg) : ∃ i j, seg i j = x := by
  unfold allLabels at h
  obtain ⟨i, _, hx⟩ := List.mem_flatMap.1 h
  obtain ⟨j, _, rfl⟩ := List.mem_map.1 hx
  exact ⟨i, j, rfl⟩

theorem foldl_optAdd_none : ∀ l : List (Option ℚ), l.foldl optAdd none = none := by
  intro l
  induction l with
  | nil => rfl
  | cons x xs ih =>
      rw [List.foldl_cons]
      have hx : optAdd none x = none := by cases x <;> rfl
      rw [hx, ih]

theorem optSum_eq_none_of_all_none {l : List (Option ℚ)} (hne : l ≠ [])
    (hall : ∀ x ∈ l, x = none) : optSum l = none := by
  cases l with
  | nil => exact absurd rfl hne
  | cons x xs =>
      have hx : x = none := hall x (List.mem_cons_self _ _)
      unfold optSum
      rw [List.foldl_cons, hx]
      exact foldl_optAdd_none xs

theorem foldl_optAdd_isSome :
    ∀ (l : List (Option ℚ)) (a : ℚ), (∀ x ∈ l, x.isSome = true) →
      (l.foldl optAdd (some a)).isSome = true := by
  intro l
  induction l with
  | nil => intro a _; rfl
  | cons x xs ih =>
      intro a hall
      obtain ⟨b, rfl⟩ := Option.isSome_iff_exists.1 (hall x (List.mem_cons_self _ _))
      rw [List.foldl_cons]
      exact ih (a + b) fun y hy => hall y (List.mem_cons_of_mem _ hy)

theorem optSum_isSome_of_all_isSome {l : List (Option ℚ)}
    (hall : ∀ x ∈ l, x.isSome = true) : (optSum l).isSome = true :=
  foldl_optAdd_isSome l 0 hall

theorem spSize_pos_of_lt {H W k : ℕ} {seg : Fin (H * k) → Fin (W * k) → ℤ}
    {s : ℕ} (hs : s < (uniqueLabels H W k seg).length) :
    0 < spSize H W k seg s := by
  have hmem : (uniqueLabels H W k seg).getD s 0 ∈ uniqueLabels H W k seg := by
    rw [List.getD_eq_getElem _ _ hs]
    exact List.getElem_mem _
  obtain ⟨i, j, hij⟩ :=
    exists_pixel_of_mem_allLabels ((mem_uniqueLabels_iff H W k seg _).1 hmem)
  have hmask : spMask H W k seg s i j = 1 := by
    unfold spMask
    rw [if_pos ⟨hs, hij⟩]
  have hrow : (1 : ℚ) ≤
      ((List.finRange (W * k)).map fun j2 => spMask H W k seg s i j2).sum := by
    rw [← hmask]
    refine List.single_le_sum ?_ _ ?_
    · intro x hx
      obtain ⟨j2, _, rfl⟩ := List.mem_map.1 hx
      exact spMask_nonneg H W k seg s i j2
    · exact List.mem_map_of_mem _ (List.mem_finRange j)
  have houter : (1 : ℚ) ≤ spSize H W k seg s := by
    unfold spSize
    refine le_trans hrow (List.single_le_sum ?_ _ ?_)
    · intro x hx
      obtain ⟨i2, _, rfl⟩ := List.mem_map.1 hx
      exact List.sum_nonneg fun y hy => by
        obtain ⟨j2, _, rfl⟩ := List.mem_map.1 hy
        exact spMask_nonneg H W k seg s i2 j2
    · exact List.mem_map_of_mem _ (List.mem_finRange i)
  linarith

theorem spMask_eq_zero_of_le {H W k : ℕ} {seg : Fin (H * k) → Fin (W * k) → ℤ}
    {s : ℕ} (hle : (uniqueLabels H W k seg).length ≤ s)
    (i : Fin (H * k)) (j : Fin (W * k)) : spMask H W k seg s i j = 0 := by
  unfold spMask
  rw [if_neg]
  intro hcontra
  exact absurd hcontra.1 (not_lt.2 hle)

theorem spSize_eq_zero_of_le {H W k : ℕ} {seg : Fin (H * k) → Fin (W * k) → ℤ}
    {s : ℕ} (hle : (uniqueLabels H W k seg).length ≤ s) :
    spSize H W k seg s = 0 := by
  unfold spSize
  have h : ∀ i : Fin (H * k),
      ((List.finRange (W * k)).map fun j => spMask H W k seg s i j).sum = 0 := by
    intro i
    have : ((List.finRange (W * k)).map fun j => spMask H W k seg s i j) =
        (List.finRange (W * k)).map fun _ => (0 : ℚ) := by
      refine List.map_congr_left fun j _ => spMask_eq_zero_of_le hle i j
    rw [this]
    simp
  have : ((List.finRange (H * k)).map fun i =>
      ((List.finRange (W * k)).map fun j => spMask H W k seg s i j).sum) =
      (List.finRange (H * k)).map fun _ => (0 : ℚ) := by
    refine List.map_congr_left fun i _ => h i
  rw [this]
  simp

/-- Helper: for every actual superpixel - an index s below the number of
distinct labels - the area is nonzero, so the division of line 175 is
well-defined and the feature vector is finite. -/
theorem real_superpixels_finite {H W k C : ℕ}
    (seg : Fin (H * k) → Fin (W * k) → ℤ) (fmap : Fin H → Fin W → Fin C → ℚ)
    (s : ℕ) (hs : s < (uniqueLabels H W k seg).length) :
    spSize H W k seg s ≠ 0 ∧
    (∀ (u : Fin H) (v : Fin W), (wwNorm H W k seg u v s).isSome = true) ∧
    ∀ c : Fin C, (spFeat H W k C seg fmap s c).isSome = true := by
  have hpos := spSize_pos_of_lt hs
  have hne : spSize H W k seg s ≠ 0 := ne_of_gt hpos
  have hsome : ∀ (u : Fin H) (v : Fin W), (wwNorm H W k seg u v s).isSome = true := by
    intro u v
    unfold wwNorm floatDiv
    rw [if_neg hne]
    rfl
  refine ⟨hne, hsome, fun c => ?_⟩
  refine optSum_isSome_of_all_isSome fun x hx => ?_
  obtain ⟨u, _, hx2⟩ := List.mem_flatMap.1 hx
  obtain ⟨v, _, rfl⟩ := List.mem_map.1 hx2
  obtain ⟨q, hq⟩ := Option.isSome_iff_exists.1 (hsome u v)
  unfold optMul
  rw [hq]
  rfl

/-- Helper: every padded superpixel - an index at or above the number of
distinct labels, as introduced by the F.pad up to max_sp_num - has an
all-zero mask and zero area, so ww_norm is the NaN 0/0 and the whole
feature vector is NaN, not the zero vector. -/
theorem padded_superpixels_nan {H W k C : ℕ}
    (seg : Fin (H * k) → Fin (W * k) → ℤ) (fmap : Fin H → Fin W → Fin C → ℚ)
    (s : ℕ) (hH : 0 < H) (hW : 0 < W)
    (hle : (uniqueLabels H W k seg).length ≤ s) :
    spSize H W k seg s = 0 ∧
    (∀ (u : Fin H) (v : Fin W), wwNorm H W k seg u v s = none) ∧
    ∀ c : Fin C, spFeat H W k C seg fmap s c = none := by
  have hz := spSize_eq_zero_of_le hle
  have hnone : ∀ (u : Fin H) (v : Fin W), wwNorm H W k seg u v s = none := by
    intro u v
    unfold wwNorm floatDiv
    rw [if_pos hz]
  refine ⟨hz, hnone, fun c => ?_⟩
  refine optSum_eq_none_of_all_none ?_ ?_
  · refine List.ne_nil_of_mem (a := optMul (wwNorm H W k seg ⟨0, hH⟩ ⟨0, hW⟩ s)
      (fmap ⟨0, hH⟩ ⟨0, hW⟩ c)) ?_
    exact List.mem_flatMap.2 ⟨⟨0, hH⟩, List.mem_finRange _,
      List.mem_map_of_mem _ (List.mem_finRange _)⟩
  · intro x hx
    obtain ⟨u, _, hx2⟩ := List.mem_flatMap.1 hx
    obtain ⟨v, _, rfl⟩ := List.mem_map.1 hx2
    unfold optMul
    rw [hnone u v]
    rfl

/-- Concrete 2x2 single-label segmentation (labels all 0) for one time
step with a 1x1 feature map: one actual superpixel, so with max_sp_num = 2
index 1 is a padded superpixel. -/
def cSeg : Fin (1 * 2) → Fin (1 * 2) → ℤ := fun _ _ => 0

/-- Concrete 1x1 single-channel feature map. -/
def cMap : Fin 1 → Fin 1 → Fin 1 → ℚ := fun _ _ _ => 1

/-- C7 counterexample: at a concrete input, the padded superpixel (index 1,
mask all-zero, area zero) makes the division of line 175 the 0/0 case -
sp_size is 0 while the claim says the division is always well-defined -
and its feature value is NaN (none), not the zero vector entry some 0. -/
theorem c7_counterexample_padded_nan :
    spSize 1 1 2 cSeg 1 = 0 ∧
    wwNotNorm 1 1 2 cSeg 0 0 1 = 0 ∧
    wwNorm 1 1 2 cSeg 0 0 1 = none ∧
    spFeat 1 1 2 1 cSeg cMap 1 0 = none ∧
    spFeat 1 1 2 1 cSeg cMap 1 0 ≠ some 0 := by
  have hlen : (uniqueLabels 1 1 2 cSeg).length = 1 := by decide
  have hle : (uniqueLabels 1 1 2 cSeg).length ≤ 1 := by omega
  have h := padded_superpixels_nan (C := 1) cSeg cMap 1 (by norm_num) (by norm_num) hle
  have hww : wwNotNorm 1 1 2 cSeg 0 0 1 = 0 := by
    unfold wwNotNorm
    have hm : ∀ (a b : Fin 2),
        spMask 1 1 2 cSeg 1 (wIdx 0 a) (wIdx 0 b) = 0 := fun a b =>
      spMask_eq_zero_of_le hle _ _
    simp [hm]
  refine ⟨h.1, hww, h.2.1 0 0, h.2.2 0, ?_⟩
  rw [h.2.2 0]
  simp

/-- C7 (amended): the division of per-window weights by superpixel area is
well-defined exactly for the actual superpixels (indices below the number
of distinct labels), whose areas are nonzero and whose features are finite;
the padded superpixels reaching max_sp_num have all-zero masks and zero
area, their weight division is the NaN 0/0, and their feature vectors are
NaN rather than all-zero. -/
theorem c7_division_welldefined_amended :
    (∀ (H W k C : ℕ) (seg : Fin (H * k) → Fin (W * k) → ℤ)
      (fmap : Fin H → Fin W → Fin C → ℚ) (s : ℕ),
      s < (uniqueLabels H W k seg).length →
      spSize H W k seg s ≠ 0 ∧
      (∀ (u : Fin H) (v : Fin W), (wwNorm H W k seg u v s).isSome = true) ∧
      ∀ c : Fin C, (spFeat H W k C seg fmap s c).isSome = true) ∧
    (∀ (H W k C : ℕ) (seg : Fin (H * k) → Fin (W * k) → ℤ)
      (fmap : Fin H → Fin W → Fin C → ℚ) (s : ℕ), 0 < H → 0 < W →
      (uniqueLabels H W k seg).length ≤ s →
      spSize H W k seg s = 0 ∧
      (∀ (u : Fin H) (v : Fin W), wwNorm H W k seg u v s = none) ∧
      ∀ c : Fin C, spFeat H W k C seg fmap s c = none) :=
  ⟨fun _ _ _ _ seg fmap s hs => real_superpixels_finite seg fmap s hs,
    fun _ _ _ _ seg fmap s hH hW hle =>
      padded_superpixels_nan seg fmap s hH hW hle⟩

theorem c7_division_welldefined_amended_witness :
    spSize 1 1 2 cSeg 0 ≠ 0 ∧
    (spFeat 1 1 2 1 cSeg cMap 0 0).isSome = true ∧
    spFeat 1 1 2 1 cSeg cMap 1 0 = none := by
  have h1 := c7_division_welldefined_amended.1 1 1 2 1 cSeg cMap 0 (by decide)
  have h2 := c7_division_welldefined_amended.2 1 1 2 1 cSeg cMap 1
    (by norm_num) (by norm_num) (by decide)
  exact ⟨h1.1, h1.2.2 0, h2.2.2 0⟩

/-- Components of the Python value returned by CRW.extract_sp_feat: the
tuple (final_feats, final_segment) viewed as the sequence of its parts,
which is what tuple unpacking at the call site consumes. -/
inductive SpRetComponent (C maxSp : ℕ) : Type where
  | feats : List (Fin maxSp → Fin C → Option ℚ) → SpRetComponent C maxSp
  | segs : List Unit → SpRetComponent C maxSp

/-- CRW.extract_sp_feat (lines 128-187): final_feats holds, per time step,
the padded per-superpixel features; final_segment is never appended to and
stays the empty list. The function returns the 2-tuple
(final_feats, final_segment). The video argument is used only for its
shape and is omitted. -/
def extract_sp_feat (H W k C maxSp T : ℕ)
    (segs : ℕ → Fin (H * k) → Fin (W * k) → ℤ)
    (maps : ℕ → Fin H → Fin W → Fin C → ℚ) : List (SpRetComponent C maxSp) :=
  [SpRetComponent.feats ((List.range T).map fun t => fun s c =>
      spFeat H W k C (segs t) (maps t) s.val c),
    SpRetComponent.segs []]

/-- Python tuple unpacking x, y, z = t: succeeds only on a 3-component
value, otherwise raises ValueError. -/
def unpack3 {γ : Type} (l : List γ) : Except String (γ × γ × γ) :=
  match l with
  | [a, b, c] => Except.ok (a, b, c)
  | _ =>
      if l.length < 3 then
        Except.error ("ValueError: not enough values to unpack (expected 3, got "
          ++ toString l.length ++ ")")
      else Except.error "ValueError: too many values to unpack (expected 3)"

theorem unpack3_extract_sp_feat (H W k C maxSp T : ℕ)
    (segs : ℕ → Fin (H * k) → Fin (W * k) → ℤ)
    (maps : ℕ → Fin H → Fin W → Fin C → ℚ) :
    unpack3 (extract_sp_feat H W k C maxSp T segs maps) =
      Except.error "ValueError: not enough values to unpack (expected 3, got 2)" := by
  unfold unpack3 extract_sp_feat
  simp
  rfl

/-- CRW.image_to_nodes (lines 189-232) up to its failure point: for each
batch item b, line 210 unpacks ff, _ff, seg from the value returned by
extract_sp_feat. The batched assembly that follows the loop (padding,
concatenation, head and L2 normalization, lines 215-231) is unreachable
whenever B ≥ 1 because the unpacking raises first, so the embedding stops
at the loop, yielding the per-item (ff, seg) pairs if unpacking were to
succeed. -/
def image_to_nodes (H W k C maxSp B T : ℕ)
    (segs : ℕ → ℕ → Fin (H * k) → Fin (W * k) → ℤ)
    (maps : ℕ → ℕ → Fin H → Fin W → Fin C → ℚ) :
    Except String (List (SpRetComponent C maxSp × SpRetComponent C maxSp)) :=
  (List.range B).mapM fun b => do
    let tup := extract_sp_feat H W k C maxSp T (segs b) (maps b)
    let (ff, _ff, seg) ← unpack3 tup
    pure (ff, seg)

/-- C4 (code bug): the superpixel node-extraction path never returns an
embedding sequence: for every input with at least one batch item,
image_to_nodes raises ValueError at line 210, because it unpacks three
values from the 2-tuple (final_feats, final_segment) that extract_sp_feat
returns. -/
theorem c4_image_to_nodes_unpack_raises (H W k C maxSp B T : ℕ)
    (segs : ℕ → ℕ → Fin (H * k) → Fin (W * k) → ℤ)
    (maps : ℕ → ℕ → Fin H → Fin W → Fin C → ℚ) (hB : 1 ≤ B) :
    image_to_nodes H W k C maxSp B T segs maps =
      Except.error "ValueError: not enough values to unpack (expected 3, got 2)" := by
  cases B with
  | zero => omega
  | succ b =>
      unfold image_to_nodes
      rw [List.range_succ_eq_map, List.mapM_cons]
      simp [unpack3_extract_sp_feat, Bind.bind, Except.bind]

theorem c4_image_to_nodes_unpack_raises_witness :
    image_to_nodes 1 1 1 1 1 1 1 (fun _ _ _ _ => 0) (fun _ _ _ _ _ => 1) =
      Except.error "ValueError: not enough values to unpack (expected 3, got 2)" :=
  c4_image_to_nodes_unpack_raises 1 1 1 1 1 1 1 (fun _ _ _ _ => 0)
    (fun _ _ _ _ _ => 1) (by norm_num)

end CRW
